import Mathlib

/-!
Shallow embedding of the indexing / search / ranking core of the
firestore-search-engine repository, together with theorems settling the
frozen claims C1-C10.

Conventions of the embedding:
* JS strings are modelled as `List Char` (`Str`); the inputs exercised here
  are ASCII, where `Char.toLower` agrees with JS `toLowerCase` and
  `List.length` agrees with JS `.length`.
* JS numbers are modelled as `ℚ` (the scores and distances manipulated by the
  ranking code are exact decimal fractions, no float-rounding claim is made).
* Asynchronous store / embedding-provider calls are modelled by explicit
  data: a hit stream (`List Hit`) stands for the snapshot returned by the
  store, a store state is a `List Entry`, and fallible paths return `Except`.
* `Array.prototype.sort` (stable since ES2019) is modelled by a stable
  insertion sort `jsSort` over the same boolean comparator.
-/

namespace FSE

/-- JS strings as lists of characters. -/
abbrev Str := List Char

/-- JS `String.prototype.toLowerCase` (ASCII fragment). -/
def lowerStr (s : Str) : Str := s.map Char.toLower

/-- JS `input.split(" ")`: split at every single space character, keeping
empty pieces, never dropping the final piece. -/
def jsSplitSpace : Str → Str → List Str
  | [], acc => [acc.reverse]
  | c :: cs, acc =>
    if c = ' ' then acc.reverse :: jsSplitSpace cs []
    else jsSplitSpace cs (c :: acc)

/-- JS `input.split(" ")` entry point. -/
def splitSpace (s : Str) : List Str := jsSplitSpace s []

/-- JS `String.prototype.trim`: strip whitespace at both ends. -/
def jsTrim (s : Str) : Str :=
  ((s.dropWhile Char.isWhitespace).reverse.dropWhile Char.isWhitespace).reverse

/-- One inner step of the Levenshtein matrix of `fse_levenshteinDistance`
(src/shared/levenshteinDistance.ts): given the character `ai = a[i-1]`, the
remaining characters of `b` from column `j`, the value `diag = matrix[i-1][j-1]`,
the value `left = matrix[i][j-1]` and the previous row from `matrix[i-1][j]`
onwards, produce the current row from `matrix[i][j]` onwards. -/
def levRowAux (ai : Char) : Str → Nat → Nat → List Nat → List Nat
  | [], _, _, _ => []
  | _ :: _, _, _, [] => []
  | bj :: bs, diag, left, pj :: ps =>
    let cost := if ai = bj then 0 else 1
    let cur := Nat.min (pj + 1) (Nat.min (left + 1) (diag + cost))
    cur :: levRowAux ai bs pj cur ps

/-- Row `i` of the matrix from row `i-1`; `matrix[i][0] = i = prev[0] + 1`. -/
def levRow (ai : Char) (b : Str) (prev : List Nat) : List Nat :=
  match prev with
  | [] => []
  | p0 :: ps => (p0 + 1) :: levRowAux ai b p0 (p0 + 1) ps

/-- `fse_levenshteinDistance` (src/shared/levenshteinDistance.ts): the dynamic
programming matrix is built row by row (`matrix[0][j] = j`, then one `levRow`
per character of `a`) and the result is `matrix[a.length][b.length]`, the last
entry of the final row. -/
def fse_levenshteinDistance (a b : Str) : Nat :=
  (a.foldl (fun row ai => levRow ai b row) (List.range (b.length + 1))).getLastD 0

/-- Closed interval `[1, n]` as a list, for JS `for (let i = 1; i <= n; i++)`. -/
def rangeClosed (n : Nat) : List Nat := (List.range n).map (· + 1)

/-- `fse_generateCharArray` (src/shared/generateCharArray.ts): for each
space-separated word and for the whole input, push the lower-cased prefixes of
length `startIndex + 1 .. min (length) maxLength`. -/
def fse_generateCharArray (input : Str) (startIndex : Nat := 3) (maxLength : Nat := 8) :
    List Str :=
  let wordFrags := (splitSpace input).foldr
    (fun word acc =>
      ((rangeClosed (Nat.min (jsTrim word).length maxLength)).filterMap
        (fun i => if i ≤ startIndex then none
                  else some (lowerStr ((jsTrim word).take i)))) ++ acc) []
  let inputFrags := (rangeClosed (Nat.min input.length maxLength)).filterMap
    (fun i => if i ≤ startIndex then none else some (lowerStr (input.take i)))
  wordFrags ++ inputFrags

/-! ## A model of `Array.prototype.sort` (stable, ES2019) -/

/-- Insert `a` into `l` before the first element `b` with `le a b`. -/
def jsInsert (le : α → α → Bool) (a : α) : List α → List α
  | [] => [a]
  | b :: l => if le a b then a :: b :: l else b :: jsInsert le a l

/-- Stable sort with respect to the boolean comparator `le`; this is the
unique stable sort, hence it models the stable `Array.prototype.sort`. -/
def jsSort (le : α → α → Bool) : List α → List α
  | [] => []
  | a :: l => jsInsert le a (jsSort le l)

/-! ## Keyboard-typo fragment generator (src/shared/generateTypos.ts) -/

/-- AZERTY keyboard neighbor table of `fse_generateTypos`; characters missing
from the JS object map to the empty list (JS `undefined`). -/
def keyboardNeighbors (c : Char) : List Char :=
  match c with
  | 'a' => ['z', 'q', 's']
  | 'z' => ['a', 'e', 's']
  | 'e' => ['z', 'r', 'd']
  | 'r' => ['e', 't', 'f']
  | 't' => ['r', 'y', 'g']
  | 'y' => ['t', 'u', 'h']
  | 'u' => ['y', 'i', 'j']
  | 'i' => ['u', 'o', 'k']
  | 'o' => ['i', 'p', 'l']
  | 'p' => ['o', 'm']
  | 'q' => ['a', 's', 'w']
  | 's' => ['a', 'z', 'd', 'q']
  | 'd' => ['s', 'e', 'f']
  | 'f' => ['d', 'r', 'g']
  | 'g' => ['f', 't', 'h']
  | 'h' => ['g', 'y', 'j']
  | 'j' => ['h', 'u', 'k']
  | 'k' => ['j', 'i', 'l']
  | 'l' => ['k', 'o', 'm']
  | 'm' => ['l', 'p']
  | _ => []

/-- The sliding windows `input.slice(start, start + size)` for
`start = 0 .. input.length - size` (no windows when the input is shorter
than `size`, matching the JS loop bound on a negative difference). -/
def segmentsOfSize (input : Str) (size : Nat) : List Str :=
  if size ≤ input.length then
    (List.range (input.length - size + 1)).map (fun start => (input.drop start).take size)
  else []

/-- The typo variants one window contributes, in JS insertion order:
first-letter substitutions, insertions and deletion (deletion unconditional
under the length guard), then last-letter substitutions, insertions and
deletion (all three gated on the last letter having neighbors). -/
def segmentTypos (seg : Str) : List Str :=
  let firstOps :=
    if 3 ≤ seg.length then
      match seg with
      | [] => []
      | c :: rest =>
        (keyboardNeighbors c).map (fun n => n :: rest) ++
        (keyboardNeighbors c).map (fun n => n :: seg) ++
        [rest]
    else []
  let lastLetter := seg.getLastD ' '
  let lastOps :=
    if 3 ≤ seg.length ∧ keyboardNeighbors lastLetter ≠ [] then
      (keyboardNeighbors lastLetter).map (fun n => seg.dropLast ++ [n]) ++
      (keyboardNeighbors lastLetter).map (fun n => seg ++ [n]) ++
      [seg.dropLast]
    else []
  firstOps ++ lastOps

/-- JS `Set.prototype.add` on a list kept in insertion order. -/
def setAdd (s : List Str) (x : Str) : List Str := if x ∈ s then s else s ++ [x]

/-- `fse_generateTypos` (src/shared/generateTypos.ts): windows of sizes 4, 5
and 6, each contributing its `segmentTypos` to an insertion-ordered set;
inputs longer than `maxLength` throw. -/
def fse_generateTypos (input : Str) (maxLength : Nat := 30) : Except Str (List Str) :=
  if maxLength < input.length then .error "Input up to 50 Char".data
  else .ok ([4, 5, 6].foldl (fun acc size =>
    (segmentsOfSize input size).foldl (fun acc2 seg => (segmentTypos seg).foldl setAdd acc2) acc) [])

/-! ## Hybrid ranking (src/shared/rankResults.ts) -/

/-- One element of the deduplicated result list of `Search.search`
(vector searcher): the spread document data plus `_relevanceScore`. -/
structure RankedHit where
  path : Str
  fieldValue : Str
  distance : ℚ
  relevanceScore : ℚ
deriving DecidableEq

/-- A ranked result carrying the hybrid `finalScore` added by
`fse_rankResults`. -/
structure ScoredHit where
  hit : RankedHit
  finalScore : ℚ
deriving DecidableEq

/-- The JS destructuring `const [a,...,j] = query.toLowerCase()` followed by
`[a,...,j].reverse().join("")`: only the first ten characters of the
(lower-cased) query survive, reversed; missing positions are `undefined` and
`join` renders them as the empty string. -/
def jsRev10 (s : Str) : Str := (s.take 10).reverse

/-- The hybrid score `fse_rankResults` assigns to one candidate:
`0.03 * (levenshtein(query, text) + levenshtein(rev10(query), text))
 + 0.97 * (1 + distance * 10)`, all texts lower-cased. -/
def fse_rankScore (query : Str) (r : RankedHit) : ℚ :=
  let textSimilarityScore : Nat :=
    fse_levenshteinDistance (lowerStr query) (lowerStr r.fieldValue)
  let textSimilarityScoreReverse : Nat :=
    fse_levenshteinDistance (jsRev10 (lowerStr query)) (lowerStr r.fieldValue)
  let distanceScore : ℚ := 1 + r.distance * 10
  3 / 100 * ((textSimilarityScore : ℚ) + (textSimilarityScoreReverse : ℚ)) +
    97 / 100 * distanceScore

/-- `fse_rankResults` (src/shared/rankResults.ts): map each result to its
hybrid score, sort descending by `finalScore` (`(a, b) => b.finalScore -
a.finalScore`), then `.reverse()` — the returned list is therefore ascending
in `finalScore`. -/
def fse_rankResults (results : List RankedHit) (query : Str) : List ScoredHit :=
  (jsSort (fun a b => decide (b.finalScore ≤ a.finalScore))
    (results.map (fun r => ScoredHit.mk r (fse_rankScore query r)))).reverse

/-! ## Vector searcher (Search class with findNearest, src/search/Search.ts
vector variant) -/

/-- One hit of the nearest-neighbor hit stream, in store order, with the
cosine distance the store reports in `distanceResultField`. -/
structure Hit where
  path : Str
  fieldValue : Str
  distance : ℚ
deriving DecidableEq

/-- The result object pushed for a fresh hit: `_relevanceScore` is
`data.distance ? 1 - data.distance : 1.0` (JS truthiness: a zero distance
falls to the `1.0` branch). -/
def toRankedHit (h : Hit) : RankedHit :=
  { path := h.path, fieldValue := h.fieldValue, distance := h.distance,
    relevanceScore := if h.distance = 0 then 1 else 1 - h.distance }

/-- The `uniqueDocs` loop of the vector `Search.search`: iterate hits in
store order and keep only the first hit of each `indexedDocumentPath`. -/
def uniqueDocsAux : List Hit → List Str → List RankedHit
  | [], _ => []
  | h :: hs, seen =>
    if h.path ∈ seen then uniqueDocsAux hs seen
    else toRankedHit h :: uniqueDocsAux hs (h.path :: seen)

/-- Deduplicated results of the vector searcher, before ranking. -/
def searchDedup (hits : List Hit) : List RankedHit := uniqueDocsAux hits []

/-- Vector search with fuzzy ranking enabled (the default,
`props.fuzzySearch !== false`). -/
def searchRankedFuzzy (query : Str) (hits : List Hit) : List ScoredHit :=
  fse_rankResults (searchDedup hits) query

/-- Vector search with fuzzy ranking disabled: sort the deduplicated results
by `_relevanceScore` descending. -/
def searchRankedPlain (hits : List Hit) : List RankedHit :=
  jsSort (fun a b => decide (b.relevanceScore ≤ a.relevanceScore)) (searchDedup hits)

/-- The `if (!this.props.limit) this.props.limit = 10` default of the vector
searcher constructor (JS falsiness: an explicit 0 also falls back). -/
def resolveLimit : Option Nat → Nat
  | none => 10
  | some n => if n = 0 then 10 else n

/-! ## Legacy lexical searcher (src/search/Search.ts, array-contains-any on
`search_keywords`) -/

/-- A legacy index entry as seen by the lexical searcher: the stored
fragment set `search_keywords` plus the rest of the document (identified
here by its `indexedDocumentPath`). -/
structure LegacyDoc where
  path : Str
  keywords : List Str
deriving DecidableEq

/-- Per-keyword distance total: the sum over all whitespace-separated query
words of their Levenshtein distance to the keyword. -/
def distanceTotal (words : List Str) (keyword : Str) : Nat :=
  (words.map (fun w => fse_levenshteinDistance w keyword)).sum

/-- The inclusion test of the legacy guard for one keyword:
`isCloseEnough && distanceTotal <= 6` — some query word within distance 2,
and the summed distance of all query words at most 6. -/
def keywordQualifies (words : List Str) (keyword : Str) : Bool :=
  words.any (fun w => fse_levenshteinDistance w keyword ≤ 2) &&
    distanceTotal words keyword ≤ 6

/-- The `closeRelevance` accumulator:
`Math.min(distance, closeRelevance || Infinity)` over qualifying words
(JS `||`: a stored 0 is falsy and resets the bound to infinity). -/
def closeRelevanceFold (words : List Str) (keyword : Str) : Nat :=
  words.foldl (fun acc w =>
    let d := fse_levenshteinDistance w keyword
    if d ≤ 2 then (if acc = 0 then d else Nat.min d acc) else acc) 0

/-- First stored keyword passing the guard, with its `closeRelevance`. -/
def firstQualifying (words : List Str) : List Str → Option Nat
  | [] => none
  | k :: ks =>
    if keywordQualifies words k then some (closeRelevanceFold words k)
    else firstQualifying words ks

/-- The candidate loop of the legacy `Search.search`: each snapshot document
is pushed at most once (`uniqueDocs`), on its first qualifying keyword, with
that keyword's relevance. -/
def legacyCollect (words : List Str) : List LegacyDoc → List Str → List (LegacyDoc × Nat)
  | [], _ => []
  | d :: ds, seen =>
    if d.path ∈ seen then legacyCollect words ds seen
    else
      match firstQualifying words d.keywords with
      | some rel => (d, rel) :: legacyCollect words ds (d.path :: seen)
      | none => legacyCollect words ds seen

/-- The legacy constructor default `if (!props.limit) this.props.limit = 20`. -/
def legacyResolveLimit : Option Nat → Nat
  | none => 20
  | some n => if n = 0 then 20 else n

/-- The store's `array-contains-any` membership filter on `search_keywords`. -/
def containsAny (kws : List Str) (queryKws : List Str) : Bool :=
  kws.any (fun k => k ∈ queryKws)

/-- Legacy `Search.search`: expand the query with `fse_generateCharArray`,
let the store return every document whose fragment set meets the expansion,
run the guard loop, sort ascending by relevance, truncate to the limit and
return the document payloads. -/
def legacySearch (fieldValue : Str) (store : List LegacyDoc) (limit : Nat) :
    List LegacyDoc :=
  let searchKeywords := fse_generateCharArray fieldValue
  let candidates := store.filter (fun d => containsAny d.keywords searchKeywords)
  if candidates.isEmpty then []
  else
    ((jsSort (fun a b => decide (a.2 ≤ b.2))
        (legacyCollect (splitSpace fieldValue) candidates [])).take limit).map
      (fun r => r.1)

/-- The legacy index writer (`Indexes.execute` of the generateTypos era):
the stored `search_keywords` of an indexed text are its keyboard-typo
fragments; over-long inputs propagate the generator's error. -/
def legacyIndexEntry (path : Str) (inputField : Str) : Except Str LegacyDoc :=
  (fse_generateTypos inputField).map (fun kws => LegacyDoc.mk path kws)

/-! ## Multi-field search combination (CloudFunctionsManager) -/

/-- One weighted per-field search result, as produced by `searchMultiField`:
`_relevanceScore` is already scaled by the field weight. -/
structure FieldHit where
  path : Str
  fieldMatch : Str
  fieldWeight : ℚ
  relevanceScore : ℚ
deriving DecidableEq

/-- One `_matchedFields` entry. -/
structure MatchedField where
  field : Str
  weight : ℚ
  score : ℚ
deriving DecidableEq

/-- One combined multi-field result. -/
structure CombinedResult where
  path : Str
  fieldMatch : Str
  fieldWeight : ℚ
  relevanceScore : ℚ
  matchedFields : List MatchedField
deriving DecidableEq

/-- The JS `x || dflt` idiom on a possibly-missing number: `undefined` and
`0` are falsy and give the default. -/
def jsOrQ (v : Option ℚ) (dflt : ℚ) : ℚ :=
  match v with
  | none => dflt
  | some x => if x = 0 then dflt else x

/-- The weight application of `searchMultiField`:
`(result._relevanceScore || 1.0) * (fieldConfig.weight || 1.0)`. -/
def scaleWeight (score : ℚ) (weight : Option ℚ) : ℚ :=
  jsOrQ (some score) 1 * jsOrQ weight 1

/-- One step of the `groupedResults` map of `combineMultiFieldResults`:
a fresh path inserts a result seeded with one `_matchedFields` entry; a
known path keeps the existing payload, raises `_relevanceScore` to the
maximum and appends to `_matchedFields`. -/
def combineInsert (acc : List CombinedResult) (r : FieldHit) : List CombinedResult :=
  if acc.any (fun c => decide (c.path = r.path)) then
    acc.map (fun c =>
      if c.path = r.path then
        { c with relevanceScore := max c.relevanceScore r.relevanceScore,
                 matchedFields := c.matchedFields ++
                   [MatchedField.mk r.fieldMatch r.fieldWeight r.relevanceScore] }
      else c)
  else
    acc ++ [{ path := r.path, fieldMatch := r.fieldMatch, fieldWeight := r.fieldWeight,
              relevanceScore := r.relevanceScore,
              matchedFields := [MatchedField.mk r.fieldMatch r.fieldWeight r.relevanceScore] }]

/-- `combineMultiFieldResults` (CloudFunctionsManager): group the
concatenated per-field hits by `indexedDocumentPath` in insertion order,
sort descending by the combined `_relevanceScore` and truncate to `limit`. -/
def combineMultiFieldResults (results : List FieldHit) (limit : Nat) : List CombinedResult :=
  (jsSort (fun a b => decide (b.relevanceScore ≤ a.relevanceScore))
    (results.foldl combineInsert [])).take limit

/-! ## Index store model (Indexes.cleanOldIndexes / saveWithLimitedKeywords,
IndexesAll.bulkWithMultiFieldIndexes) -/

/-- An abstract persisted index entry: its identity `indexedDocumentPath`
and an opaque tag standing for the vectors / field snapshot it carries. -/
structure Entry where
  path : Str
  content : Nat
deriving DecidableEq

/-- `cleanOldIndexes`: the equality-filter query on `indexedDocumentPath`
followed by batched deletes removes every entry matching the path. -/
def cleanOldIndexes (store : List Entry) (path : Str) : List Entry :=
  store.filter (fun e => decide (e.path ≠ path))

/-- `saveWithLimitedKeywords` (and the per-document body of
`bulkWithMultiFieldIndexes`): delete all entries matching the document path,
then create one fresh entry; the bulk writer is closed before the call
returns, so a completed call has applied both phases. -/
def saveWithLimitedKeywords (store : List Entry) (e : Entry) : List Entry :=
  cleanOldIndexes store e.path ++ [e]

/-! ## Indexing entry points: validation and the operations they issue
(FirestoreSearchEngine.indexes, CloudFunctionsManager.indexesMultiField,
IndexesAll.execute / executeMultiField) -/

/-- The store / embedding-provider operations an indexing call can issue;
a call that throws during validation returns `Except.error` and by
construction issues none of these. -/
inductive StoreOp
  | vectorizeOp (text : Str)
  | queryOldIndexes (path : Str)
  | createEntry (path : Str) (fieldValue : Str)
  | multiIndexWrite (path : Str)
deriving DecidableEq

/-- A JS field value as relevant here: a string, or anything else
(`undefined`, numbers, objects — all fail `typeof x === "string"`). -/
inductive JsVal
  | str (s : Str)
  | other
deriving DecidableEq

/-- Per-field configuration of the multi-field mode (`weight`,
`fuzzySearch`). -/
structure FieldConfig where
  weight : Option ℚ
  fuzzySearch : Option Bool
deriving DecidableEq

/-- `FirestoreSearchEngine.indexes` routed to the single-field
`Indexes.executeSingleField`: after the `inputField` validation the call
vectorizes the raw input (no length filter on this path), queries the old
entries of `returnedFields.indexedDocumentPath` for deletion and creates the
new entry with the lower-cased text. `inputField = none` models a non-string
value. -/
def fse_indexes (inputField : Option Str) (indexedDocumentPath : Str) :
    Except Str (List StoreOp) :=
  match inputField with
  | none => .error "fieldValue is required and must be a non-empty string.".data
  | some s =>
    if s.length = 0 then
      .error "fieldValue is required and must be a non-empty string.".data
    else
      .ok [StoreOp.vectorizeOp s, StoreOp.queryOldIndexes indexedDocumentPath,
           StoreOp.createEntry indexedDocumentPath (lowerStr s)]

/-- `CloudFunctionsManager.indexesMultiField`: validation of `inputFields`
(`none` models a missing / non-object value) before routing to the
multi-field indexer, whose store writes happen only in the `ok` branch. -/
def indexesMultiField (inputFields : Option (List (Str × FieldConfig)))
    (indexedDocumentPath : Str) : Except Str (List StoreOp) :=
  match inputFields with
  | none =>
    .error "inputFields is required and must be an object with field configurations.".data
  | some fields =>
    if fields.length = 0 then
      .error "At least one field must be specified in inputFields.".data
    else .ok [StoreOp.multiIndexWrite indexedDocumentPath]

/-! ## Multi-field bulk indexing (IndexesAll.executeMultiField) -/

/-- A source document handed to a bulk indexing call. -/
structure MultiDoc where
  indexedDocumentPath : Str
  fields : List (Str × JsVal)
deriving DecidableEq

/-- JS property read `element[name]`. -/
def lookupField (d : MultiDoc) (name : Str) : Option JsVal :=
  d.fields.lookup name

/-- The cleanup `fieldValue.toLowerCase().trim()` of `executeMultiField`. -/
def cleanMultiText (s : Str) : Str := jsTrim (lowerStr s)

/-- The field-collection loop of `executeMultiField`: a field is vectorized
iff its value is a truthy string (nonempty) whose cleaned text has length in
`[wordMinLength, wordMaxLength]`; every other field is skipped silently. -/
def fieldsToVectorize (wordMinLength wordMaxLength : Nat)
    (fieldConfigs : List (Str × FieldConfig)) (d : MultiDoc) : List (Str × Str) :=
  fieldConfigs.filterMap (fun fc =>
    match lookupField d fc.1 with
    | some (JsVal.str s) =>
      if s.length = 0 then none
      else
        let cleanText := cleanMultiText s
        if wordMinLength ≤ cleanText.length ∧ cleanText.length ≤ wordMaxLength then
          some (fc.1, cleanText)
        else none
    | _ => none)

/-- The index document `executeMultiField` assembles for one source
document: one `_vector_<field>` and one `<field>_original` per retained
field, plus `_field_weights` with the `weight || 1.0` default. -/
structure IndexDocument where
  indexedDocumentPath : Str
  vectorFields : List Str
  originals : List (Str × Str)
  fieldWeights : List (Str × ℚ)
deriving DecidableEq

/-- Document assembly of `executeMultiField`; a document none of whose
fields is retained is skipped (`continue`), producing no index document. -/
def multiIndexDocPlan (wordMinLength wordMaxLength : Nat)
    (fieldConfigs : List (Str × FieldConfig)) (d : MultiDoc) : Option IndexDocument :=
  let ftv := fieldsToVectorize wordMinLength wordMaxLength fieldConfigs d
  if ftv.length = 0 then none
  else some
    { indexedDocumentPath := d.indexedDocumentPath
      vectorFields := ftv.map (fun p => "_vector_".data ++ p.1)
      originals := ftv.map (fun p => (p.1 ++ "_original".data, p.2))
      fieldWeights := ftv.map (fun p =>
        (p.1, jsOrQ ((fieldConfigs.lookup p.1).bind (fun c => c.weight)) 1)) }

/-- `IndexesAll.executeMultiField`: every source document is planned
independently; unusable documents are dropped and never abort the batch
(the subsequent `bulkWithMultiFieldIndexes` cleans and creates exactly the
planned documents). -/
def executeMultiField (wordMinLength wordMaxLength : Nat)
    (fieldConfigs : List (Str × FieldConfig)) (docs : List MultiDoc) :
    List IndexDocument :=
  docs.filterMap (multiIndexDocPlan wordMinLength wordMaxLength fieldConfigs)

/-! ## Single-field bulk indexing (IndexesAll.execute) -/

/-- One pending single-field bulk write. -/
structure SingleBulkEntry where
  indexedDocumentPath : Str
  fieldValue : Str
deriving DecidableEq

/-- The preparation loop of `IndexesAll.execute`: for each document the
value at `documentProps.indexedKey` is read and `.toLowerCase()` is called
on it with no try/catch — a missing or non-string value raises a TypeError
that aborts the whole call before `bulkWithLimitedKeywords` has written
anything. -/
def indexesAllCollect (indexedKey : Str) : List MultiDoc → Except Str (List SingleBulkEntry)
  | [] => .ok []
  | d :: ds =>
    match lookupField d indexedKey with
    | some (JsVal.str s) =>
      (indexesAllCollect indexedKey ds).map
        (fun rest => SingleBulkEntry.mk d.indexedDocumentPath (lowerStr s) :: rest)
    | _ => .error "TypeError: toLowerCase is not a function".data

/-- `IndexesAll.execute`: the whole batch is prepared first; only a fully
successful preparation reaches the bulk writer. -/
def indexesAllExecute (indexedKey : Str) (docs : List MultiDoc) :
    Except Str (List SingleBulkEntry) :=
  indexesAllCollect indexedKey docs

/-! ## The nearest-neighbor query the vector searcher issues
(src/search/Search.ts vector variant, constructor and findNearest call) -/

/-- `distanceThreshold` validity test of the constructor: a number strictly
between 0 and 1. -/
def validThreshold : Option ℚ → Bool
  | none => false
  | some t => decide (0 < t) && decide (t < 1)

/-- The constructor's resolution of `this.distanceThreshold`: the props
value when valid, else the config value when valid, else the logged default
`0.2`. -/
def resolveDistanceThreshold (props config : Option ℚ) : ℚ :=
  if validThreshold props then props.getD 0
  else if validThreshold config then config.getD 0
  else 1 / 5

/-- Search props relevant to the findNearest call. -/
structure SearchProps where
  limit : Option Nat
  distanceThreshold : Option ℚ
  fieldFilter : Option Str
  vectorFieldName : Option Str
deriving DecidableEq

/-- The argument object of the `findNearest` call. -/
structure FindNearestQuery where
  vectorField : Str
  limit : Nat
  distanceMeasure : Str
  distanceThreshold : Option ℚ
  distanceResultField : Str
deriving DecidableEq

/-- The `findNearest` call `Search.search` actually issues: vector field
from `fieldFilter` / `vectorFieldName`, the resolved limit, cosine distance
and a distance result field — and no `distanceThreshold`, since the line
passing it is commented out in the source
(`// Remove threshold temporarily to see if any documents match`). -/
def buildFindNearestQuery (props : SearchProps) : FindNearestQuery :=
  { vectorField :=
      match props.fieldFilter with
      | some f => "_vector_".data ++ f
      | none => props.vectorFieldName.getD "vectors".data
    limit := resolveLimit props.limit
    distanceMeasure := "COSINE".data
    distanceThreshold := none
    distanceResultField := "distance".data }

/-- The fragment set `legacyIndexEntry` stores for an input within the
generator's length bound (the `ok` payload of `fse_generateTypos`). -/
def typosOf (input : Str) : List Str :=
  match fse_generateTypos input with
  | .ok kws => kws
  | .error _ => []

/-- The hybrid score exactly as the claim states it (spec-side definition,
for comparison with `fse_rankScore`): `0.03 * (editDistance(query, text) +
editDistance(reverse(query), text)) + 0.97 * (1 + vectorDistance * 10)`,
where `reverse(query)` is the full character reversal of the query and both
edit-distance comparisons are on lower-cased texts. -/
def specHybridScore (query : Str) (r : RankedHit) : ℚ :=
  3 / 100 * ((fse_levenshteinDistance (lowerStr query) (lowerStr r.fieldValue) : ℚ) +
    (fse_levenshteinDistance (lowerStr query).reverse (lowerStr r.fieldValue) : ℚ)) +
  97 / 100 * (1 + r.distance * 10)

/-- The entries of a store that match one `indexedDocumentPath` — the result
set of the equality-filter query used by `cleanOldIndexes`. -/
def entriesFor (store : List Entry) (path : Str) : List Entry :=
  store.filter (fun e => decide (e.path = path))

/-! ## General lemmas -/

theorem jsInsert_perm (le : α → α → Bool) (a : α) (l : List α) :
    (jsInsert le a l).Perm (a :: l) := by
  induction l with
  | nil => simp [jsInsert]
  | cons b l ih =>
    simp only [jsInsert]
    split
    · exact List.Perm.refl _
    · exact ((ih.cons b).trans (List.Perm.swap a b l))

theorem jsSort_perm (le : α → α → Bool) (l : List α) : (jsSort le l).Perm l := by
  induction l with
  | nil => simp [jsSort]
  | cons a l ih => exact (jsInsert_perm le a (jsSort le l)).trans (ih.cons a)

theorem jsInsert_pairwise (le : α → α → Bool)
    (total : ∀ a b, le a b = true ∨ le b a = true)
    (trans : ∀ a b c, le a b = true → le b c = true → le a c = true)
    (a : α) (l : List α) (h : l.Pairwise (fun x y => le x y = true)) :
    (jsInsert le a l).Pairwise (fun x y => le x y = true) := by
  induction l with
  | nil => simp [jsInsert]
  | cons b l ih =>
    simp only [jsInsert]
    rcases List.pairwise_cons.mp h with ⟨hb, hl⟩
    split
    · rename_i hab
      refine List.pairwise_cons.mpr ⟨?_, h⟩
      intro x hx
      rcases List.mem_cons.mp hx with h1 | h1
      · subst h1; exact hab
      · exact trans a b x hab (hb x h1)
    · rename_i hab
      refine List.pairwise_cons.mpr ⟨?_, ih hl⟩
      intro x hx
      rcases List.mem_cons.mp ((jsInsert_perm le a l).mem_iff.mp hx) with h1 | h1
      · subst h1
        rcases total b x with h2 | h2
        · exact h2
        · exact absurd h2 (by simpa using hab)
      · exact hb x h1

theorem jsSort_pairwise (le : α → α → Bool)
    (total : ∀ a b, le a b = true ∨ le b a = true)
    (trans : ∀ a b c, le a b = true → le b c = true → le a c = true)
    (l : List α) : (jsSort le l).Pairwise (fun x y => le x y = true) := by
  induction l with
  | nil => simp [jsSort]
  | cons a l ih => exact jsInsert_pairwise le total trans a (jsSort le l) ih

theorem jsSort_length (le : α → α → Bool) (l : List α) :
    (jsSort le l).length = l.length :=
  (jsSort_perm le l).length_eq

theorem entriesFor_cleanOldIndexes (store : List Entry) (p : Str) :
    entriesFor (cleanOldIndexes store p) p = [] := by
  unfold entriesFor cleanOldIndexes
  rw [List.filter_filter]
  have h : ∀ e : Entry, (decide (e.path = p) && decide (e.path ≠ p)) = false := by
    intro e; by_cases he : e.path = p <;> simp [he]
  simp [h]

theorem entriesFor_cleanOldIndexes_other (store : List Entry) (p d : Str) (h : p ≠ d) :
    entriesFor (cleanOldIndexes store p) d = entriesFor store d := by
  unfold entriesFor cleanOldIndexes
  rw [List.filter_filter]
  refine List.filter_congr ?_
  intro e _
  by_cases hd : e.path = d
  · have hp : e.path ≠ p := fun hp => h (hp ▸ hd)
    simp [hd, hp, Ne.symm h]
  · simp [hd]

theorem entriesFor_save_self (store : List Entry) (e : Entry) :
    entriesFor (saveWithLimitedKeywords store e) e.path = [e] := by
  unfold saveWithLimitedKeywords entriesFor
  rw [List.filter_append]
  have h1 := entriesFor_cleanOldIndexes store e.path
  unfold entriesFor at h1
  rw [h1]
  simp

theorem entriesFor_save_other (store : List Entry) (e : Entry) (d : Str)
    (h : e.path ≠ d) :
    entriesFor (saveWithLimitedKeywords store e) d = entriesFor store d := by
  unfold saveWithLimitedKeywords entriesFor
  rw [List.filter_append]
  have h1 := entriesFor_cleanOldIndexes_other store e.path d h
  unfold entriesFor at h1
  rw [h1]
  simp [h]

theorem uniqueDocsAux_path_notin (hits : List Hit) (seen : List Str) :
    ∀ r ∈ uniqueDocsAux hits seen, r.path ∉ seen := by
  induction hits generalizing seen with
  | nil => intro r hr; simp [uniqueDocsAux] at hr
  | cons h hs ih =>
    intro r hr
    simp only [uniqueDocsAux] at hr
    by_cases hmem : h.path ∈ seen
    · rw [if_pos hmem] at hr
      exact ih seen r hr
    · rw [if_neg hmem] at hr
      rcases List.mem_cons.mp hr with h1 | h1
      · subst h1; exact hmem
      · intro hcon
        exact (ih (h.path :: seen) r h1) (List.mem_cons_of_mem _ hcon)

theorem uniqueDocsAux_pairwise (hits : List Hit) (seen : List Str) :
    (uniqueDocsAux hits seen).Pairwise (fun a b => a.path ≠ b.path) := by
  induction hits generalizing seen with
  | nil => simp [uniqueDocsAux]
  | cons h hs ih =>
    simp only [uniqueDocsAux]
    by_cases hmem : h.path ∈ seen
    · rw [if_pos hmem]; exact ih seen
    · rw [if_neg hmem]
      refine List.pairwise_cons.mpr ⟨?_, ih (h.path :: seen)⟩
      intro r hr
      have := uniqueDocsAux_path_notin hs (h.path :: seen) r hr
      intro hcon
      exact this (hcon ▸ List.mem_cons_self _ _)

theorem uniqueDocsAux_find (hits : List Hit) (seen : List Str) (p : Str)
    (hp : p ∉ seen) :
    (uniqueDocsAux hits seen).find? (fun r => decide (r.path = p)) =
      (hits.find? (fun h => decide (h.path = p))).map toRankedHit := by
  induction hits generalizing seen with
  | nil => simp [uniqueDocsAux]
  | cons h hs ih =>
    simp only [uniqueDocsAux]
    by_cases hmem : h.path ∈ seen
    · rw [if_pos hmem]
      have hne : ¬ h.path = p := fun he => hp (he ▸ hmem)
      rw [List.find?_cons_of_neg hs (by simpa using hne), ih seen hp]
    · rw [if_neg hmem]
      by_cases heq : h.path = p
      · rw [List.find?_cons_of_pos _ (by simp [toRankedHit, heq]),
          List.find?_cons_of_pos hs (by simpa using heq)]
        rfl
      · have hp2 : p ∉ h.path :: seen := by
          intro hcon
          rcases List.mem_cons.mp hcon with h1 | h1
          · exact heq h1.symm
          · exact hp h1
        rw [List.find?_cons_of_neg _ (by simp [toRankedHit, heq]),
          List.find?_cons_of_neg hs (by simpa using heq)]
        exact ih (h.path :: seen) hp2

theorem rankResults_hits_perm (results : List RankedHit) (query : Str) :
    ((fse_rankResults results query).map ScoredHit.hit).Perm results := by
  unfold fse_rankResults
  rw [List.map_reverse]
  refine (List.reverse_perm _).trans ?_
  have h1 := (jsSort_perm (fun a b : ScoredHit => decide (b.finalScore ≤ a.finalScore))
    (results.map (fun r => ScoredHit.mk r (fse_rankScore query r)))).map ScoredHit.hit
  have h2 : (results.map (fun r => ScoredHit.mk r (fse_rankScore query r))).map
      ScoredHit.hit = results := by
    rw [List.map_map]
    have hid : ∀ a ∈ results,
        (ScoredHit.hit ∘ fun r => ScoredHit.mk r (fse_rankScore query r)) a = id a :=
      fun a _ => rfl
    rw [List.map_congr_left hid, List.map_id]
  rw [h2] at h1
  exact h1

theorem legacyCollect_path_notin (words : List Str) (docs : List LegacyDoc)
    (seen : List Str) :
    ∀ r ∈ legacyCollect words docs seen, r.1.path ∉ seen := by
  induction docs generalizing seen with
  | nil => intro r hr; simp [legacyCollect] at hr
  | cons d ds ih =>
    intro r hr
    simp only [legacyCollect] at hr
    by_cases hmem : d.path ∈ seen
    · rw [if_pos hmem] at hr
      exact ih seen r hr
    · rw [if_neg hmem] at hr
      cases hq : firstQualifying words d.keywords with
      | some rel =>
        rw [hq] at hr
        rcases List.mem_cons.mp hr with h1 | h1
        · subst h1; exact hmem
        · intro hcon
          exact (ih (d.path :: seen) r h1) (List.mem_cons_of_mem _ hcon)
      | none =>
        rw [hq] at hr
        exact ih seen r hr

theorem legacyCollect_pairwise (words : List Str) (docs : List LegacyDoc)
    (seen : List Str) :
    (legacyCollect words docs seen).Pairwise (fun a b => a.1.path ≠ b.1.path) := by
  induction docs generalizing seen with
  | nil => simp [legacyCollect]
  | cons d ds ih =>
    simp only [legacyCollect]
    by_cases hmem : d.path ∈ seen
    · rw [if_pos hmem]; exact ih seen
    · rw [if_neg hmem]
      cases hq : firstQualifying words d.keywords with
      | some rel =>
        refine List.pairwise_cons.mpr ⟨?_, ih (d.path :: seen)⟩
        intro r hr
        have := legacyCollect_path_notin words ds (d.path :: seen) r hr
        intro hcon
        exact this (hcon ▸ List.mem_cons_self _ _)
      | none => exact ih seen

theorem combineInsert_paths (acc : List CombinedResult) (r : FieldHit) :
    (combineInsert acc r).map (fun c => c.path) =
      if acc.any (fun c => decide (c.path = r.path)) then acc.map (fun c => c.path)
      else acc.map (fun c => c.path) ++ [r.path] := by
  unfold combineInsert
  by_cases h : acc.any (fun c => decide (c.path = r.path))
  · rw [if_pos h, if_pos h, List.map_map]
    refine List.map_congr_left ?_
    intro c _
    by_cases hc : c.path = r.path <;> simp [hc]
  · rw [if_neg h, if_neg h, List.map_append]
    simp

theorem combineFold_pairwise (results : List FieldHit) (acc : List CombinedResult)
    (h : (acc.map (fun c => c.path)).Pairwise (fun a b => a ≠ b)) :
    ((results.foldl combineInsert acc).map (fun c => c.path)).Pairwise
      (fun a b => a ≠ b) := by
  induction results generalizing acc with
  | nil => simpa using h
  | cons r rs ih =>
    rw [List.foldl_cons]
    refine ih (combineInsert acc r) ?_
    rw [combineInsert_paths]
    by_cases hany : acc.any (fun c => decide (c.path = r.path))
    · rw [if_pos hany]; exact h
    · rw [if_neg hany]
      rw [List.pairwise_append]
      refine ⟨h, List.pairwise_singleton _ _, ?_⟩
      intro a ha b hb
      rcases List.mem_map.mp ha with ⟨c, hc, hca⟩
      rcases List.mem_singleton.mp hb
      intro hcon
      have : acc.any (fun c => decide (c.path = r.path)) = true := by
        refine List.any_eq_true.mpr ⟨c, hc, ?_⟩
        simp [hca ▸ hcon]
      exact hany this

theorem jsSort_pairwise_rat (f : α → ℚ) (l : List α) :
    (jsSort (fun a b => decide (f b ≤ f a)) l).Pairwise (fun a b => f b ≤ f a) := by
  have h := jsSort_pairwise (fun a b => decide (f b ≤ f a)) ?_ ?_ l
  · exact h.imp (fun hab => of_decide_eq_true hab)
  · intro a b
    rcases le_total (f b) (f a) with h1 | h1
    · exact Or.inl (decide_eq_true h1)
    · exact Or.inr (decide_eq_true h1)
  · intro a b c hab hbc
    exact decide_eq_true (le_trans (of_decide_eq_true hbc) (of_decide_eq_true hab))

theorem uniqueDocsAux_length_le (hits : List Hit) (seen : List Str) :
    (uniqueDocsAux hits seen).length ≤ hits.length := by
  induction hits generalizing seen with
  | nil => simp [uniqueDocsAux]
  | cons h hs ih =>
    simp only [uniqueDocsAux]
    by_cases hmem : h.path ∈ seen
    · rw [if_pos hmem]
      exact le_trans (ih seen) (Nat.le_succ _)
    · rw [if_neg hmem]
      simpa using ih (h.path :: seen)

theorem searchRankedFuzzy_length (query : Str) (hits : List Hit) :
    (searchRankedFuzzy query hits).length = (searchDedup hits).length := by
  have h := (rankResults_hits_perm (searchDedup hits) query).length_eq
  simpa using h

theorem searchRankedPlain_length (hits : List Hit) :
    (searchRankedPlain hits).length = (searchDedup hits).length :=
  jsSort_length _ _

/-! ## Claim theorems -/

/-- C1: every single-document indexing call is delete-then-create
(`cleanOldIndexes` removes every entry matching the document path before the
one new entry is created), so after any completed, non-concurrent sequence of
`index()` / `reindex()` calls a document has at most one index entry; an
indexing call for `d` leaves exactly the one entry of that call, and two
successive calls leave exactly one entry whose content comes from the second
call. -/
theorem C1_reindex_leaves_unique_entry :
    (∀ (store : List Entry) (e : Entry),
        entriesFor (saveWithLimitedKeywords store e) e.path = [e]) ∧
    (∀ (store : List Entry) (d : Str) (c1 c2 : Nat),
        entriesFor
          (saveWithLimitedKeywords (saveWithLimitedKeywords store (Entry.mk d c1))
            (Entry.mk d c2)) d = [Entry.mk d c2]) ∧
    (∀ (calls : List Entry) (store : List Entry) (d : Str),
        (entriesFor store d).length ≤ 1 →
        (entriesFor (calls.foldl saveWithLimitedKeywords store) d).length ≤ 1) := by
  refine ⟨entriesFor_save_self, ?_, ?_⟩
  · intro store d c1 c2
    exact entriesFor_save_self _ (Entry.mk d c2)
  · intro calls
    induction calls with
    | nil => intro store d h; simpa using h
    | cons e cs ih =>
      intro store d h
      refine ih (saveWithLimitedKeywords store e) d ?_
      by_cases hd : e.path = d
      · subst hd
        simp [entriesFor_save_self store e]
      · rw [entriesFor_save_other store e d hd]
        exact h

/-- C2: no two entries of a returned result list share an
`indexedDocumentPath`, in all three search paths — the vector searcher with
fuzzy ranking on or off, the legacy lexical searcher, and the multi-field
combination — and in the vector searcher's dedup stage the result kept for a
path is built from the first hit with that path in store order (`find?`
characterization). -/
theorem C2_search_results_dedup :
    (∀ (query : Str) (hits : List Hit),
        (searchRankedFuzzy query hits).Pairwise (fun a b => a.hit.path ≠ b.hit.path)) ∧
    (∀ hits : List Hit,
        (searchRankedPlain hits).Pairwise (fun a b => a.path ≠ b.path)) ∧
    (∀ (hits : List Hit) (p : Str),
        (searchDedup hits).find? (fun r => decide (r.path = p)) =
          (hits.find? (fun h => decide (h.path = p))).map toRankedHit) ∧
    (∀ (fieldValue : Str) (store : List LegacyDoc) (limit : Nat),
        (legacySearch fieldValue store limit).Pairwise (fun a b => a.path ≠ b.path)) ∧
    (∀ (results : List FieldHit) (limit : Nat),
        (combineMultiFieldResults results limit).Pairwise (fun a b => a.path ≠ b.path)) := by
  have hsymm : ∀ {x y : RankedHit}, x.path ≠ y.path → y.path ≠ x.path :=
    fun h => Ne.symm h
  refine ⟨?_, ?_, ?_, ?_, ?_⟩
  · intro query hits
    have hd : (searchDedup hits).Pairwise (fun a b => a.path ≠ b.path) :=
      uniqueDocsAux_pairwise hits []
    have hperm := rankResults_hits_perm (searchDedup hits) query
    have hmap : ((searchRankedFuzzy query hits).map ScoredHit.hit).Pairwise
        (fun a b => a.path ≠ b.path) :=
      (List.Perm.pairwise_iff hsymm hperm).mpr hd
    exact (@List.pairwise_map ScoredHit RankedHit ScoredHit.hit
      (fun a b => a.path ≠ b.path) (searchRankedFuzzy query hits)).mp hmap
  · intro hits
    have hd : (searchDedup hits).Pairwise (fun a b => a.path ≠ b.path) :=
      uniqueDocsAux_pairwise hits []
    exact (List.Perm.pairwise_iff hsymm
      (jsSort_perm (fun a b => decide (b.relevanceScore ≤ a.relevanceScore))
        (searchDedup hits))).mpr hd
  · intro hits p
    exact uniqueDocsAux_find hits [] p (by simp)
  · intro fieldValue store limit
    unfold legacySearch
    by_cases hempty :
        (store.filter (fun d => containsAny d.keywords (fse_generateCharArray fieldValue))).isEmpty
    · simp [hempty]
    · simp only [hempty, Bool.false_eq_true, if_false]
      have hcoll := legacyCollect_pairwise (splitSpace fieldValue)
        (store.filter (fun d => containsAny d.keywords (fse_generateCharArray fieldValue))) []
      have hsorted := (List.Perm.pairwise_iff
        (fun {x y : LegacyDoc × Nat} (h : x.1.path ≠ y.1.path) => Ne.symm h)
        (jsSort_perm (fun a b => decide (a.2 ≤ b.2)) _)).mpr hcoll
      have htake := hsorted.sublist (List.take_sublist limit _)
      exact (@List.pairwise_map (LegacyDoc × Nat) LegacyDoc (fun r => r.1)
        (fun a b => a.path ≠ b.path) _).mpr htake
  · intro results limit
    have hfold := combineFold_pairwise results [] (by simp)
    have hrec : (results.foldl combineInsert []).Pairwise
        (fun a b => a.path ≠ b.path) := List.pairwise_map.mp hfold
    have hsorted := (List.Perm.pairwise_iff
      (fun {x y : CombinedResult} (h : x.path ≠ y.path) => Ne.symm h)
      (jsSort_perm (fun a b => decide (b.relevanceScore ≤ a.relevanceScore)) _)).mpr hrec
    exact hsorted.sublist (List.take_sublist limit _)

/-- Witness for C2 at a concrete duplicated hit stream: the first hit of the
repeated path is the one kept. -/
theorem C2_search_results_dedup_witness :
    (searchDedup [Hit.mk "p".data "a".data 0, Hit.mk "p".data "b".data 1]).find?
        (fun r => decide (r.path = "p".data)) =
      some (toRankedHit (Hit.mk "p".data "a".data 0)) := by
  rw [C2_search_results_dedup.2.2.1
    [Hit.mk "p".data "a".data 0, Hit.mk "p".data "b".data 1] "p".data]
  rfl

/-- Witness for C1 at a concrete store and call sequence. -/
theorem C1_reindex_leaves_unique_entry_witness :
    (entriesFor [Entry.mk "d".data 0, Entry.mk "x".data 7] "d".data).length ≤ 1 ∧
    (entriesFor
        ([Entry.mk "d".data 5, Entry.mk "d".data 6].foldl saveWithLimitedKeywords
          [Entry.mk "d".data 0, Entry.mk "x".data 7]) "d".data).length ≤ 1 :=
  ⟨by decide,
    C1_reindex_leaves_unique_entry.2.2 [Entry.mk "d".data 5, Entry.mk "d".data 6]
      [Entry.mk "d".data 0, Entry.mk "x".data 7] "d".data (by decide)⟩

/-- C3 counterexample: the claim reads `relevance` as the per-result
relevance score the searcher itself attaches (`_relevanceScore = 1 -
distance`); with fuzzy ranking on (the default) the returned order is
ascending in the hybrid `finalScore`, which at this concrete hit stream
disagrees with descending `_relevanceScore`: the hit at distance `0.11`
whose text equals the query is returned before the lexically unrelated hit
at distance `0.1`. -/
theorem C3_counterexample :
    ¬ (searchRankedFuzzy "abab".data
        [Hit.mk "p1".data "zzzz".data (1 / 10), Hit.mk "p2".data "abab".data (11 / 100)]).Pairwise
      (fun a b => b.hit.relevanceScore ≤ a.hit.relevanceScore) := by
  have e1 : fse_levenshteinDistance (lowerStr "abab".data) (lowerStr "zzzz".data) = 4 := by
    decide
  have e2 : fse_levenshteinDistance (jsRev10 (lowerStr "abab".data))
      (lowerStr "zzzz".data) = 4 := by decide
  have e3 : fse_levenshteinDistance (lowerStr "abab".data) (lowerStr "abab".data) = 0 := by
    decide
  have e4 : fse_levenshteinDistance (jsRev10 (lowerStr "abab".data))
      (lowerStr "abab".data) = 2 := by decide
  simp only [searchRankedFuzzy, searchDedup, uniqueDocsAux, fse_rankResults,
    fse_rankScore, toRankedHit, jsSort, jsInsert, e1, e2, e3, e4]
  norm_num

/-- C3 as amended: with fuzzy ranking on, the vector searcher returns the
results ordered by ascending hybrid `finalScore` (the hybrid score is a
penalty — vector distance enters positively — so this is most-relevant-first
under the hybrid score, but not always descending in `_relevanceScore`);
with fuzzy ranking off the results are ordered by descending
`_relevanceScore`; the result list is never longer than the hit stream the
store returns for the requested limit, and a missing (or zero) limit
resolves to the default 10. -/
theorem C3_search_order_and_limit :
    (∀ (query : Str) (hits : List Hit),
        (searchRankedFuzzy query hits).Pairwise
          (fun a b => a.finalScore ≤ b.finalScore)) ∧
    (∀ hits : List Hit,
        (searchRankedPlain hits).Pairwise
          (fun a b => b.relevanceScore ≤ a.relevanceScore)) ∧
    (∀ (query : Str) (hits : List Hit) (limit : Option Nat),
        hits.length ≤ resolveLimit limit →
        (searchRankedFuzzy query hits).length ≤ resolveLimit limit) ∧
    (∀ (hits : List Hit) (limit : Option Nat),
        hits.length ≤ resolveLimit limit →
        (searchRankedPlain hits).length ≤ resolveLimit limit) ∧
    resolveLimit none = 10 ∧ resolveLimit (some 0) = 10 := by
  refine ⟨?_, ?_, ?_, ?_, rfl, rfl⟩
  · intro query hits
    unfold searchRankedFuzzy fse_rankResults
    rw [List.pairwise_reverse]
    exact jsSort_pairwise_rat ScoredHit.finalScore _
  · intro hits
    exact jsSort_pairwise_rat RankedHit.relevanceScore _
  · intro query hits limit h
    rw [searchRankedFuzzy_length]
    exact le_trans (uniqueDocsAux_length_le hits []) h
  · intro hits limit h
    rw [searchRankedPlain_length]
    exact le_trans (uniqueDocsAux_length_le hits []) h

/-- Witness for C3 at a concrete hit stream within the default limit. -/
theorem C3_search_order_and_limit_witness :
    [Hit.mk "p".data "t".data 0].length ≤ resolveLimit none ∧
    (searchRankedFuzzy "q".data [Hit.mk "p".data "t".data 0]).length ≤
      resolveLimit none :=
  ⟨by decide,
    C3_search_order_and_limit.2.2.1 "q".data [Hit.mk "p".data "t".data 0] none
      (by decide)⟩

set_option maxRecDepth 4000 in
/-- C4 counterexample: on an eleven-character query the code does not use
the full reversal of the query — the destructuring `[a,...,j]` keeps only the
first ten characters — so the score the code computes differs from the
claimed formula at this input (candidate text equal to the full reversal,
vector distance 0). -/
theorem C4_counterexample :
    fse_rankScore "abcdefghijk".data (RankedHit.mk "p".data "kjihgfedcba".data 0 1) ≠
      specHybridScore "abcdefghijk".data (RankedHit.mk "p".data "kjihgfedcba".data 0 1) := by
  have e1 : fse_levenshteinDistance (lowerStr "abcdefghijk".data)
      (lowerStr "kjihgfedcba".data) = 10 := by decide
  have e2 : fse_levenshteinDistance (jsRev10 (lowerStr "abcdefghijk".data))
      (lowerStr "kjihgfedcba".data) = 1 := by decide
  have e3 : fse_levenshteinDistance (lowerStr "abcdefghijk".data).reverse
      (lowerStr "kjihgfedcba".data) = 0 := by decide
  simp only [fse_rankScore, specHybridScore, e1, e2, e3]
  norm_num

/-- C4 as amended: the hybrid reranking score is
`0.03 * (editDistance(query, text) + editDistance(rev10(query), text)) +
0.97 * (1 + vectorDistance * 10)` where `rev10` reverses only the first ten
characters of the lower-cased query; for queries of at most ten characters
this coincides with the claimed full-reversal formula. -/
theorem C4_hybrid_score_formula :
    (∀ (query : Str) (r : RankedHit),
        fse_rankScore query r =
          3 / 100 * ((fse_levenshteinDistance (lowerStr query) (lowerStr r.fieldValue) : ℚ) +
            (fse_levenshteinDistance ((lowerStr query).take 10).reverse
              (lowerStr r.fieldValue) : ℚ)) +
          97 / 100 * (1 + r.distance * 10)) ∧
    (∀ (query : Str) (r : RankedHit), query.length ≤ 10 →
        fse_rankScore query r = specHybridScore query r) := by
  refine ⟨fun query r => rfl, ?_⟩
  intro query r h
  unfold fse_rankScore specHybridScore jsRev10
  have hlen : (lowerStr query).length ≤ 10 := by simpa [lowerStr] using h
  rw [List.take_of_length_le hlen]

/-- Witness for C4 at a short query, where the claimed formula holds. -/
theorem C4_hybrid_score_formula_witness :
    ("abc".data : Str).length ≤ 10 ∧
    fse_rankScore "abc".data (RankedHit.mk "p".data "abd".data 1 0) =
      specHybridScore "abc".data (RankedHit.mk "p".data "abd".data 1 0) :=
  ⟨by decide,
    C4_hybrid_score_formula.2 "abc".data (RankedHit.mk "p".data "abd".data 1 0)
      (by decide)⟩

/-- C5: the constructor resolves the effective `distanceThreshold` exactly
as the claim describes (props value when in `(0,1)`, else config value when
in `(0,1)`, else the default `0.2`), but the `findNearest` call the searcher
issues carries only the limit: the `distanceThreshold` argument is commented
out in the source (`// Remove threshold temporarily to see if any documents
match`), so the query never carries the resolved threshold and hits beyond
it are not excluded. -/
theorem C5_find_nearest_threshold_not_passed :
    (∀ (t : ℚ) (c : Option ℚ), 0 < t → t < 1 →
        resolveDistanceThreshold (some t) c = t) ∧
    (∀ t : ℚ, 0 < t → t < 1 →
        resolveDistanceThreshold none (some t) = t) ∧
    resolveDistanceThreshold none none = 1 / 5 ∧
    (∀ props : SearchProps, (buildFindNearestQuery props).distanceThreshold = none) ∧
    (∀ props : SearchProps, (buildFindNearestQuery props).limit = resolveLimit props.limit) ∧
    (buildFindNearestQuery (SearchProps.mk none none none none)).distanceThreshold ≠
      some (resolveDistanceThreshold none none) := by
  refine ⟨?_, ?_, rfl, fun props => rfl, fun props => rfl, by simp [buildFindNearestQuery]⟩
  · intro t c h1 h2
    simp [resolveDistanceThreshold, validThreshold, h1, h2]
  · intro t h1 h2
    simp [resolveDistanceThreshold, validThreshold, h1, h2]

/-- Witness for C5 at a concrete valid threshold. -/
theorem C5_find_nearest_threshold_not_passed_witness :
    (0 : ℚ) < 1 / 2 ∧ (1 : ℚ) / 2 < 1 ∧
    resolveDistanceThreshold (some (1 / 2)) (some (9 / 10)) = 1 / 2 :=
  ⟨by norm_num, by norm_num,
    C5_find_nearest_threshold_not_passed.1 (1 / 2) (some (9 / 10)) (by norm_num)
      (by norm_num)⟩

/-- C6 counterexample: an indexing call whose
`displayFields.indexedDocumentPath` is the empty string does not throw — no
code validates the path — and the call proceeds to the embedding-provider
and store operations (shown both for the single-field entry point and for
the multi-field entry point, whose validation only inspects
`inputFields`). -/
theorem C6_counterexample :
    fse_indexes (some "hello".data) [] =
      .ok [StoreOp.vectorizeOp "hello".data, StoreOp.queryOldIndexes [],
           StoreOp.createEntry [] "hello".data] ∧
    indexesMultiField (some [("title".data, FieldConfig.mk none none)]) [] =
      .ok [StoreOp.multiIndexWrite []] := by
  constructor <;> rfl

/-- C6 as amended: the single-field entry point throws synchronously
(`Except.error`, which by construction carries no store or embedding
operations) on a missing / non-string / empty `inputField`, and the
multi-field entry point throws on a missing or empty `inputFields` set;
an empty `displayFields.indexedDocumentPath` is not validated — with a
valid `inputField` the call proceeds to I/O even when the path is empty. -/
theorem C6_validation_behavior :
    (∀ path : Str, fse_indexes none path =
        .error "fieldValue is required and must be a non-empty string.".data) ∧
    (∀ path : Str, fse_indexes (some []) path =
        .error "fieldValue is required and must be a non-empty string.".data) ∧
    (∀ path : Str, indexesMultiField none path =
        .error "inputFields is required and must be an object with field configurations.".data) ∧
    (∀ path : Str, indexesMultiField (some []) path =
        .error "At least one field must be specified in inputFields.".data) ∧
    (∀ (s : Str) (path : Str), s.length ≠ 0 →
        fse_indexes (some s) path =
          .ok [StoreOp.vectorizeOp s, StoreOp.queryOldIndexes path,
               StoreOp.createEntry path (lowerStr s)]) := by
  refine ⟨fun path => rfl, fun path => rfl, fun path => rfl, fun path => rfl, ?_⟩
  intro s path h
  simp [fse_indexes, h]

/-- Witness for C6: a nonempty input field passes validation and issues the
vectorize / query / create operations even with an empty document path. -/
theorem C6_validation_behavior_witness :
    ("hi".data : Str).length ≠ 0 ∧
    fse_indexes (some "hi".data) [] =
      .ok [StoreOp.vectorizeOp "hi".data, StoreOp.queryOldIndexes [],
           StoreOp.createEntry [] (lowerStr "hi".data)] :=
  ⟨by decide, C6_validation_behavior.2.2.2.2 "hi".data [] (by decide)⟩

/-- C7 counterexample: the single-field indexing path applies no length
filter — a two-character text (below the default `wordMinLength = 3`) is
vectorized and a new entry is created for it, so a vector is produced for
an out-of-bounds field value. -/
theorem C7_counterexample :
    fse_indexes (some "ab".data) "doc/1".data =
      .ok [StoreOp.vectorizeOp "ab".data, StoreOp.queryOldIndexes "doc/1".data,
           StoreOp.createEntry "doc/1".data "ab".data] := rfl

/-- C7 as amended: the length bounds are enforced only by the multi-field
indexing path: a field whose cleaned text is shorter than `wordMinLength`
or longer than `wordMaxLength` is silently skipped — it contributes no
vectorized text and no `_vector_<field>` key to the assembled index
document, while fields within bounds are retained — and no error is raised
(the multi-field planner is total); the single-field path vectorizes its
input regardless of length. -/
theorem C7_length_bounds_multi_field_only :
    (∀ (minL maxL : Nat) (cfgs : List (Str × FieldConfig)) (d : MultiDoc)
        (name s : Str),
        lookupField d name = some (JsVal.str s) →
        ((cleanMultiText s).length < minL ∨ maxL < (cleanMultiText s).length) →
        ∀ p ∈ fieldsToVectorize minL maxL cfgs d, p.1 ≠ name) ∧
    (∀ (minL maxL : Nat) (cfgs : List (Str × FieldConfig)) (d : MultiDoc)
        (name s : Str) (doc : IndexDocument),
        lookupField d name = some (JsVal.str s) →
        ((cleanMultiText s).length < minL ∨ maxL < (cleanMultiText s).length) →
        multiIndexDocPlan minL maxL cfgs d = some doc →
        ("_vector_".data ++ name) ∉ doc.vectorFields) ∧
    (∀ (minL maxL : Nat) (cfgs : List (Str × FieldConfig)) (d : MultiDoc)
        (name s : Str) (cfg : FieldConfig),
        (name, cfg) ∈ cfgs →
        lookupField d name = some (JsVal.str s) →
        s.length ≠ 0 →
        minL ≤ (cleanMultiText s).length →
        (cleanMultiText s).length ≤ maxL →
        (name, cleanMultiText s) ∈ fieldsToVectorize minL maxL cfgs d) := by
  have hmain : ∀ (minL maxL : Nat) (cfgs : List (Str × FieldConfig)) (d : MultiDoc)
      (name s : Str),
      lookupField d name = some (JsVal.str s) →
      ((cleanMultiText s).length < minL ∨ maxL < (cleanMultiText s).length) →
      ∀ p ∈ fieldsToVectorize minL maxL cfgs d, p.1 ≠ name := by
    intro minL maxL cfgs d name s hlook hbound p hp
    rcases List.mem_filterMap.mp hp with ⟨fc, hfc, heq⟩
    intro hpname
    cases hlf : lookupField d fc.1 with
    | none => rw [hlf] at heq; exact Option.noConfusion heq
    | some v =>
      cases v with
      | other => rw [hlf] at heq; exact Option.noConfusion heq
      | str s2 =>
        simp only [hlf] at heq
        by_cases hz : s2.length = 0
        · rw [if_pos hz] at heq; exact Option.noConfusion heq
        · rw [if_neg hz] at heq
          by_cases hb : minL ≤ (cleanMultiText s2).length ∧ (cleanMultiText s2).length ≤ maxL
          · rw [if_pos hb] at heq
            have hfst : fc.1 = name := by
              have hpq := Option.some.inj heq
              have hfs := congrArg Prod.fst hpq
              simpa [hpname] using hfs
            rw [hfst, hlook] at hlf
            have hs : s2 = s := by
              have := Option.some.inj hlf
              exact (JsVal.str.inj this.symm)
            subst hs
            rcases hbound with hb1 | hb1
            · exact absurd hb.1 (Nat.not_le_of_lt hb1)
            · exact absurd hb.2 (Nat.not_le_of_lt hb1)
          · rw [if_neg hb] at heq; exact Option.noConfusion heq
  refine ⟨hmain, ?_, ?_⟩
  · intro minL maxL cfgs d name s doc hlook hbound hplan hmem
    unfold multiIndexDocPlan at hplan
    by_cases hz : (fieldsToVectorize minL maxL cfgs d).length = 0
    · rw [if_pos hz] at hplan; exact Option.noConfusion hplan
    · rw [if_neg hz] at hplan
      have hdoc := Option.some.inj hplan
      rw [← hdoc] at hmem
      simp only [List.mem_map] at hmem
      rcases hmem with ⟨p, hp, hpe⟩
      have hp1 : p.1 = name := List.append_cancel_left hpe
      exact hmain minL maxL cfgs d name s hlook hbound p hp hp1
  · intro minL maxL cfgs d name s cfg hcfg hlook hz hlow hhigh
    refine List.mem_filterMap.mpr ⟨(name, cfg), hcfg, ?_⟩
    simp only [lookupField] at hlook ⊢
    simp only [hlook]
    rw [if_neg hz, if_pos (And.intro hlow hhigh)]

/-- Witness for C7: a field whose value is below the length bound is absent
from the vectorization set of a concrete multi-field indexing call. -/
theorem C7_length_bounds_multi_field_only_witness :
    ("title".data, cleanMultiText "ab".data) ∉
      fieldsToVectorize 3 100 [("title".data, FieldConfig.mk none none)]
        (MultiDoc.mk "doc/1".data [("title".data, JsVal.str "ab".data)]) := by
  intro hmem
  exact C7_length_bounds_multi_field_only.1 3 100
    [("title".data, FieldConfig.mk none none)]
    (MultiDoc.mk "doc/1".data [("title".data, JsVal.str "ab".data)])
    "title".data "ab".data (by decide) (by decide) _ hmem rfl

/-- C9 counterexample: in the single-field bulk path a document whose
indexed key is missing aborts the whole call — the preparation loop calls
`.toLowerCase()` with no try/catch — so the other document of the batch is
not indexed either (the rejected call carries no pending writes), contrary
to the claimed log-and-continue behavior. -/
theorem C9_counterexample :
    indexesAllExecute "name".data
      [MultiDoc.mk "doc/good".data [("name".data, JsVal.str "alice".data)],
       MultiDoc.mk "doc/bad".data []] =
      .error "TypeError: toLowerCase is not a function".data := rfl

/-- C9 as amended: the single-field bulk call succeeds exactly when every
document has a string value at the indexed key — one malformed document
makes the whole call reject before any write, with no logging — while the
multi-field bulk path really does skip an unusable document and still
processes the other documents unchanged. -/
theorem C9_bulk_partial_failure :
    (∀ (key : Str) (docs : List MultiDoc),
        (∃ l, indexesAllExecute key docs = .ok l) ↔
          ∀ d ∈ docs, ∃ s, lookupField d key = some (JsVal.str s)) ∧
    (∀ (key : Str) (docs : List MultiDoc) (d : MultiDoc),
        d ∈ docs → (∀ s, lookupField d key ≠ some (JsVal.str s)) →
        indexesAllExecute key docs =
          .error "TypeError: toLowerCase is not a function".data) ∧
    (∀ (minL maxL : Nat) (cfgs : List (Str × FieldConfig))
        (docs1 docs2 : List MultiDoc) (bad : MultiDoc),
        multiIndexDocPlan minL maxL cfgs bad = none →
        executeMultiField minL maxL cfgs (docs1 ++ bad :: docs2) =
          executeMultiField minL maxL cfgs docs1 ++
            executeMultiField minL maxL cfgs docs2) := by
  refine ⟨?_, ?_, ?_⟩
  · intro key docs
    induction docs with
    | nil => simp [indexesAllExecute, indexesAllCollect]
    | cons d ds ih =>
      simp only [indexesAllExecute, indexesAllCollect] at ih ⊢
      cases hl : lookupField d key with
      | none =>
        simp only [hl]
        constructor
        · rintro ⟨l, hle⟩; exact absurd hle (by simp)
        · intro h
          rcases h d (List.mem_cons_self d ds) with ⟨s, hs⟩
          rw [hl] at hs; exact absurd hs (by simp)
      | some v =>
        cases v with
        | other =>
          simp only [hl]
          constructor
          · rintro ⟨l, hle⟩; exact absurd hle (by simp)
          · intro h
            rcases h d (List.mem_cons_self d ds) with ⟨s, hs⟩
            rw [hl] at hs
            exact absurd hs (by simp)
        | str s =>
          simp only [hl]
          constructor
          · rintro ⟨l, hle⟩
            cases hcol : indexesAllCollect key ds with
            | error e => rw [hcol] at hle; exact absurd hle (by simp [Except.map])
            | ok l2 =>
              intro d2 hd2
              rcases List.mem_cons.mp hd2 with h1 | h1
              · subst h1; exact ⟨s, hl⟩
              · exact (ih.mp ⟨l2, hcol⟩) d2 h1
          · intro h
            have htail : ∀ d2 ∈ ds, ∃ s2, lookupField d2 key = some (JsVal.str s2) :=
              fun d2 hd2 => h d2 (List.mem_cons_of_mem d hd2)
            rcases ih.mpr htail with ⟨l2, hcol⟩
            exact ⟨SingleBulkEntry.mk d.indexedDocumentPath (lowerStr s) :: l2,
              by rw [hcol]; rfl⟩
  · intro key docs d hd hbad
    induction docs with
    | nil => simp at hd
    | cons d2 ds ih =>
      simp only [indexesAllExecute, indexesAllCollect] at ih ⊢
      cases hl : lookupField d2 key with
      | none => rfl
      | some v =>
        cases v with
        | other => rfl
        | str s =>
          rcases List.mem_cons.mp hd with h1 | h1
          · subst h1; exact absurd hl (hbad s)
          · rw [ih h1]; rfl
  · intro minL maxL cfgs docs1 docs2 bad hbad
    unfold executeMultiField
    rw [List.filterMap_append, List.filterMap_cons_none hbad]

/-- Witness for C9: a concrete multi-field bulk call where the unusable
middle document is skipped and the surrounding documents are planned as if
it were absent. -/
theorem C9_bulk_partial_failure_witness :
    executeMultiField 3 100 [("t".data, FieldConfig.mk none none)]
      ([MultiDoc.mk "doc/a".data [("t".data, JsVal.str "good text".data)]] ++
        MultiDoc.mk "doc/b".data [] ::
          [MultiDoc.mk "doc/c".data [("t".data, JsVal.str "more text".data)]]) =
      executeMultiField 3 100 [("t".data, FieldConfig.mk none none)]
        [MultiDoc.mk "doc/a".data [("t".data, JsVal.str "good text".data)]] ++
      executeMultiField 3 100 [("t".data, FieldConfig.mk none none)]
        [MultiDoc.mk "doc/c".data [("t".data, JsVal.str "more text".data)]] :=
  C9_bulk_partial_failure.2.2 3 100 [("t".data, FieldConfig.mk none none)]
    [MultiDoc.mk "doc/a".data [("t".data, JsVal.str "good text".data)]]
    [MultiDoc.mk "doc/c".data [("t".data, JsVal.str "more text".data)]]
    (MultiDoc.mk "doc/b".data []) rfl

/-- C10 counterexample: both weights are nonnegative and `0.5 > 0`, yet the
document's scaled score under the larger weight is strictly lower, because
the code's `weight || 1.0` default turns a weight of `0` into `1.0`. -/
theorem C10_counterexample :
    (0 : ℚ) ≤ 0 ∧ (0 : ℚ) < 1 / 2 ∧
    scaleWeight (9 / 10) (some (1 / 2)) < scaleWeight (9 / 10) (some 0) := by
  refine ⟨le_refl 0, by norm_num, ?_⟩
  norm_num [scaleWeight, jsOrQ]

/-- C10 as amended: weight monotonicity holds for strictly positive weights
and a nonnegative per-field score — the scaled score under the larger weight
is at least the scaled score under the smaller one, and no more competitors
rank strictly above the document (the combined output is sorted descending
by score, so ranking higher means fewer strictly-greater scores). The
restriction is forced: a weight of `0` is replaced by the default `1.0`
(`weight || 1.0`), and a negative score (cosine distance above 1) reverses
the inequality. -/
theorem C10_weight_monotonicity :
    (∀ s w1 w2 : ℚ, 0 ≤ s → 0 < w2 → w2 < w1 →
        scaleWeight s (some w2) ≤ scaleWeight s (some w1)) ∧
    (∀ (s w1 w2 : ℚ) (others : List ℚ), 0 ≤ s → 0 < w2 → w2 < w1 →
        others.countP (fun t => decide (scaleWeight s (some w1) < t)) ≤
          others.countP (fun t => decide (scaleWeight s (some w2) < t))) ∧
    (∀ (results : List FieldHit) (limit : Nat),
        (combineMultiFieldResults results limit).Pairwise
          (fun a b => b.relevanceScore ≤ a.relevanceScore)) := by
  have hmono : ∀ s w1 w2 : ℚ, 0 ≤ s → 0 < w2 → w2 < w1 →
      scaleWeight s (some w2) ≤ scaleWeight s (some w1) := by
    intro s w1 w2 hs hw2 hw12
    have hw1 : (0 : ℚ) < w1 := lt_trans hw2 hw12
    have hred : ∀ x : ℚ, jsOrQ (some x) 1 = if x = 0 then 1 else x := fun x => rfl
    unfold scaleWeight
    simp only [hred]
    rw [if_neg (ne_of_gt hw2), if_neg (ne_of_gt hw1)]
    by_cases hz : s = 0
    · rw [if_pos hz]
      simpa using le_of_lt hw12
    · rw [if_neg hz]
      exact mul_le_mul_of_nonneg_left (le_of_lt hw12) hs
  refine ⟨hmono, ?_, ?_⟩
  · intro s w1 w2 others hs hw2 hw12
    refine List.countP_mono_left ?_
    intro t _ ht
    have h1 : scaleWeight s (some w1) < t := of_decide_eq_true ht
    exact decide_eq_true (lt_of_le_of_lt (hmono s w1 w2 hs hw2 hw12) h1)
  · intro results limit
    exact (jsSort_pairwise_rat CombinedResult.relevanceScore _).sublist
      (List.take_sublist limit _)

/-- Witness for C10 at concrete positive weights and a nonnegative score. -/
theorem C10_weight_monotonicity_witness :
    (0 : ℚ) ≤ 9 / 10 ∧ (0 : ℚ) < 1 ∧ (1 : ℚ) < 2 ∧
    scaleWeight (9 / 10) (some 1) ≤ scaleWeight (9 / 10) (some 2) :=
  ⟨by norm_num, by norm_num, by norm_num,
    C10_weight_monotonicity.1 (9 / 10) 2 1 (by norm_num) (by norm_num) (by norm_num)⟩

theorem keywordQualifies_iff (words : List Str) (k : Str) :
    keywordQualifies words k = true ↔
      (∃ w ∈ words, fse_levenshteinDistance w k ≤ 2) ∧
        distanceTotal words k ≤ 6 := by
  simp [keywordQualifies, List.any_eq_true]

theorem firstQualifying_isSome (words : List Str) (ks : List Str) :
    (firstQualifying words ks).isSome = true ↔
      ∃ k ∈ ks, keywordQualifies words k = true := by
  induction ks with
  | nil => simp [firstQualifying]
  | cons k ks ih =>
    simp only [firstQualifying]
    by_cases hq : keywordQualifies words k = true
    · simp [hq]
    · simp only [hq, Bool.false_eq_true, if_false]
      rw [ih]
      constructor
      · rintro ⟨k2, hk2, hq2⟩
        exact ⟨k2, List.mem_cons_of_mem k hk2, hq2⟩
      · rintro ⟨k2, hk2, hq2⟩
        rcases List.mem_cons.mp hk2 with h1 | h1
        · subst h1; exact absurd hq2 hq
        · exact ⟨k2, h1, hq2⟩

theorem legacyCollect_mem (words : List Str) (docs : List LegacyDoc)
    (seen : List Str) (p : Str) (hp : p ∉ seen) :
    p ∈ (legacyCollect words docs seen).map (fun r => r.1.path) ↔
      ∃ d ∈ docs, d.path = p ∧ (firstQualifying words d.keywords).isSome = true := by
  induction docs generalizing seen with
  | nil => simp [legacyCollect]
  | cons d ds ih =>
    simp only [legacyCollect]
    by_cases hmem : d.path ∈ seen
    · rw [if_pos hmem, ih seen hp]
      constructor
      · rintro ⟨d2, hd2, he⟩
        exact ⟨d2, List.mem_cons_of_mem d hd2, he⟩
      · rintro ⟨d2, hd2, he1, he2⟩
        rcases List.mem_cons.mp hd2 with h1 | h1
        · subst h1; exact absurd (he1 ▸ hmem) hp
        · exact ⟨d2, h1, he1, he2⟩
    · rw [if_neg hmem]
      cases hq : firstQualifying words d.keywords with
      | some rel =>
        simp only [List.map_cons, List.mem_cons]
        constructor
        · rintro (h1 | h1)
          · exact ⟨d, Or.inl rfl, h1.symm, by rw [hq]; rfl⟩
          · by_cases hpd : p = d.path
            · exact ⟨d, Or.inl rfl, hpd.symm, by rw [hq]; rfl⟩
            · have hp2 : p ∉ d.path :: seen := by
                intro hcon
                rcases List.mem_cons.mp hcon with h2 | h2
                · exact hpd h2
                · exact hp h2
              rcases (ih (d.path :: seen) hp2).mp h1 with ⟨d2, hd2, he⟩
              exact ⟨d2, Or.inr hd2, he⟩
        · rintro ⟨d2, hd2, he1, he2⟩
          rcases hd2 with h1 | h1
          · subst h1; exact Or.inl he1.symm
          · by_cases hpd : p = d.path
            · exact Or.inl hpd
            · have hp2 : p ∉ d.path :: seen := by
                intro hcon
                rcases List.mem_cons.mp hcon with h2 | h2
                · exact hpd h2
                · exact hp h2
              exact Or.inr ((ih (d.path :: seen) hp2).mpr ⟨d2, h1, he1, he2⟩)
      | none =>
        rw [ih seen hp]
        constructor
        · rintro ⟨d2, hd2, he⟩
          exact ⟨d2, List.mem_cons_of_mem d hd2, he⟩
        · rintro ⟨d2, hd2, he1, he2⟩
          rcases List.mem_cons.mp hd2 with h1 | h1
          · subst h1
            rw [hq] at he2
            exact absurd he2 (by simp)
          · exact ⟨d2, h1, he1, he2⟩

set_option maxRecDepth 100000 in
/-- C8 counterexample: the candidate is returned by the membership query and
satisfies the claimed inclusion condition — a query word at edit distance 0
from a stored fragment, no earlier emission — yet the legacy search excludes
it, because the guard also requires the summed distance of all query words
to the fragment to be at most 6 and the second query word is far from every
fragment. -/
theorem C8_counterexample :
    containsAny ["abc".data, "xxxx".data]
      (fse_generateCharArray "abc xxxxxxxxxx".data) = true ∧
    (∃ k ∈ [("abc".data : Str), "xxxx".data],
        ∃ w ∈ splitSpace "abc xxxxxxxxxx".data, fse_levenshteinDistance w k ≤ 2) ∧
    legacySearch "abc xxxxxxxxxx".data
      [LegacyDoc.mk "doc/1".data ["abc".data, "xxxx".data]] 20 = [] := by
  refine ⟨by decide, by decide, by decide⟩

set_option maxRecDepth 100000 in
/-- C8 as amended: a candidate document contributes a result exactly when
some stored fragment has a query word within edit distance 2 AND the sum of
the distances of all query words to that fragment is at most 6 (and the
path has not already been emitted; everything case-sensitively, fragments
being lower-cased at generation time). Under the keyboard-typo fragments
actually stored at index time, indexing `"Montmartre"` and searching the
capitalized `"Montmatre"` returns no match — no stored fragment equals any
lower-cased query prefix, so the membership query returns nothing — while
the same search over an index built from the lower-cased `"montmartre"`
does return the document. -/
theorem C8_legacy_guard_condition :
    (∀ (fieldValue : Str) (store : List LegacyDoc) (p : Str),
        p ∈ (legacyCollect (splitSpace fieldValue)
            (store.filter
              (fun d => containsAny d.keywords (fse_generateCharArray fieldValue)))
            []).map (fun r => r.1.path) ↔
          ∃ d ∈ store,
            containsAny d.keywords (fse_generateCharArray fieldValue) = true ∧
            d.path = p ∧
            ∃ k ∈ d.keywords,
              (∃ w ∈ splitSpace fieldValue, fse_levenshteinDistance w k ≤ 2) ∧
              distanceTotal (splitSpace fieldValue) k ≤ 6) ∧
    (∀ (fieldValue : Str) (store : List LegacyDoc) (limit : Nat) (p : Str),
        p ∈ (legacySearch fieldValue store limit).map (fun d => d.path) →
          ∃ d ∈ store,
            containsAny d.keywords (fse_generateCharArray fieldValue) = true ∧
            d.path = p ∧
            ∃ k ∈ d.keywords,
              (∃ w ∈ splitSpace fieldValue, fse_levenshteinDistance w k ≤ 2) ∧
              distanceTotal (splitSpace fieldValue) k ≤ 6) ∧
    legacyIndexEntry "hotels/1".data "Montmartre".data =
      .ok (LegacyDoc.mk "hotels/1".data (typosOf "Montmartre".data)) ∧
    legacySearch "Montmatre".data
      [LegacyDoc.mk "hotels/1".data (typosOf "Montmartre".data)] 20 = [] ∧
    legacyIndexEntry "hotels/1".data "montmartre".data =
      .ok (LegacyDoc.mk "hotels/1".data (typosOf "montmartre".data)) ∧
    legacySearch "Montmatre".data
      [LegacyDoc.mk "hotels/1".data (typosOf "montmartre".data)] 20 =
      [LegacyDoc.mk "hotels/1".data (typosOf "montmartre".data)] := by
  have hiff : ∀ (fieldValue : Str) (store : List LegacyDoc) (p : Str),
      p ∈ (legacyCollect (splitSpace fieldValue)
          (store.filter
            (fun d => containsAny d.keywords (fse_generateCharArray fieldValue)))
          []).map (fun r => r.1.path) ↔
        ∃ d ∈ store,
          containsAny d.keywords (fse_generateCharArray fieldValue) = true ∧
          d.path = p ∧
          ∃ k ∈ d.keywords,
            (∃ w ∈ splitSpace fieldValue, fse_levenshteinDistance w k ≤ 2) ∧
            distanceTotal (splitSpace fieldValue) k ≤ 6 := by
    intro fv store p
    rw [legacyCollect_mem _ _ _ _ (by simp)]
    constructor
    · rintro ⟨d, hd, he1, he2⟩
      rcases List.mem_filter.mp hd with ⟨hds, hpred⟩
      rcases (firstQualifying_isSome _ _).mp he2 with ⟨k, hk, hq⟩
      rcases (keywordQualifies_iff _ _).mp hq with ⟨hclose, htot⟩
      exact ⟨d, hds, hpred, he1, k, hk, hclose, htot⟩
    · rintro ⟨d, hds, hpred, he1, k, hk, hclose, htot⟩
      refine ⟨d, List.mem_filter.mpr ⟨hds, hpred⟩, he1, ?_⟩
      exact (firstQualifying_isSome _ _).mpr
        ⟨k, hk, (keywordQualifies_iff _ _).mpr ⟨hclose, htot⟩⟩
  refine ⟨hiff, ?_, rfl, by decide, rfl, by decide⟩
  intro fv store limit p hp
  simp only [legacySearch] at hp
  by_cases hempty :
      (store.filter
        (fun d => containsAny d.keywords (fse_generateCharArray fv))).isEmpty = true
  · rw [if_pos hempty] at hp
    simp at hp
  · rw [if_neg hempty] at hp
    rcases List.mem_map.mp hp with ⟨d0, hd0, hde⟩
    rcases List.mem_map.mp hd0 with ⟨r, hr, hre⟩
    have hr2 : r ∈ jsSort (fun a b => decide (a.2 ≤ b.2))
        (legacyCollect (splitSpace fv)
          (store.filter (fun d => containsAny d.keywords (fse_generateCharArray fv))) []) :=
      List.mem_of_mem_take hr
    have hr3 := (jsSort_perm (fun a b : LegacyDoc × Nat => decide (a.2 ≤ b.2))
      (legacyCollect (splitSpace fv)
        (store.filter (fun d => containsAny d.keywords (fse_generateCharArray fv)))
        [])).mem_iff.mp hr2
    refine (hiff fv store p).mp ?_
    refine List.mem_map.mpr ⟨r, hr3, ?_⟩
    rw [hre, hde]

/-- Witness for C8: a concrete search whose single result satisfies the
amended guard condition. -/
theorem C8_legacy_guard_condition_witness :
    ∃ d ∈ [LegacyDoc.mk "doc/9".data ["xxxx".data]],
      containsAny d.keywords (fse_generateCharArray "xxxx".data) = true ∧
      d.path = "doc/9".data ∧
      ∃ k ∈ d.keywords,
        (∃ w ∈ splitSpace "xxxx".data, fse_levenshteinDistance w k ≤ 2) ∧
        distanceTotal (splitSpace "xxxx".data) k ≤ 6 :=
  C8_legacy_guard_condition.2.1 "xxxx".data
    [LegacyDoc.mk "doc/9".data ["xxxx".data]] 20 "doc/9".data (by decide)

end FSE
